import Mathlib

/-!
Verification of the `parallel` command executor against its design document.

Strings from the Rust sources are modelled as `List Char` (the code iterates
over `chars()` everywhere the verified claims touch); machine integers are
`Nat`.  Each definition mirrors one function of the sources, keeping its name.
-/

namespace Parallel

/- ===================== Tokenizer (src/main.rs) ===================== -/

/-- The command-template token type (`enum Token`, src/main.rs). -/
inductive Token
  | Character (c : Char)
  | Placeholder
  | RemoveExtension
  | Basename
  | Dirname
  | BaseAndExt
  | Slot
  | Job
  deriving DecidableEq, Repr

/-- `match_token` (src/main.rs): the fixed table of brace-group patterns. -/
def match_token : List Char → Option Token
  | ['.'] => some Token.RemoveExtension
  | ['#'] => some Token.Job
  | ['%'] => some Token.Slot
  | ['/'] => some Token.Basename
  | ['/', '/'] => some Token.Dirname
  | ['/', '.'] => some Token.BaseAndExt
  | _ => none

/-- The tokens pushed when a `}` closes the brace group `pat`
(src/main.rs, `tokenize`, the `('}', true)` arm). -/
def closeGroup (pat : List Char) : List Token :=
  if pat = [] then
    [Token.Placeholder]
  else
    match match_token pat with
    | some t => [t]
    | none =>
        Token.Character '{' :: pat.map Token.Character ++ [Token.Character '}']

/-- The scanning loop of `tokenize` (src/main.rs): state `matching` and the
accumulated brace-group `pat`.  When the input ends while `matching` is still
set, the pending `'{'` and pattern are dropped, exactly as in the source. -/
def tokenizeFrom : List Char → Bool → List Char → List Token
  | [], _, _ => []
  | c :: rest, false, pat =>
      if c = '{' then tokenizeFrom rest true pat
      else Token.Character c :: tokenizeFrom rest false pat
  | c :: rest, true, pat =>
      if c = '}' then closeGroup pat ++ tokenizeFrom rest false []
      else tokenizeFrom rest true (pat ++ [c])

/-- `tokenize` (src/main.rs). -/
def tokenize (template : List Char) : List Token :=
  tokenizeFrom template false []

/-- The textual form of a token, per the fixed placeholder table: re-emitting a
token as template text (the spec's round-trip rendering). -/
def renderToken : Token → List Char
  | Token.Character c => [c]
  | Token.Placeholder => ['{', '}']
  | Token.RemoveExtension => ['{', '.', '}']
  | Token.Job => ['{', '#', '}']
  | Token.Slot => ['{', '%', '}']
  | Token.Basename => ['{', '/', '}']
  | Token.Dirname => ['{', '/', '/', '}']
  | Token.BaseAndExt => ['{', '/', '.', '}']

/-- Re-emitting a token sequence as template text. -/
def renderTokens (ts : List Token) : List Char :=
  ts.flatMap renderToken

/-- A template item: a plain character or a `{...}` brace group. -/
inductive TItem
  | ch (c : Char)
  | grp (pat : List Char)
  deriving DecidableEq, Repr

/-- The text of a template item. -/
def TItem.text : TItem → List Char
  | TItem.ch c => [c]
  | TItem.grp pat => '{' :: pat ++ ['}']

/-- An item is good when it is a non-brace character, or a brace group whose
pattern is empty or matches the fixed table. -/
def TItem.goodb : TItem → Bool
  | TItem.ch c => c ≠ '{'
  | TItem.grp pat => pat = [] || (match_token pat).isSome

/-- The template text of a list of items. -/
def templateOf (items : List TItem) : List Char :=
  items.flatMap TItem.text

/- ============ Path derivative helpers (src/main.rs) ============ -/

/-- The index-tracking loop shared by `remove_extension`, `basename` and
`dirname` (src/main.rs): scan all characters, remembering the index of the
last occurrence of `sep` (0 when there is none). -/
def lastSepFrom (sep : Char) : List Char → Nat → Nat → Nat
  | [], _, acc => acc
  | c :: rest, id, acc => lastSepFrom sep rest (id + 1) (if c = sep then id else acc)

/-- The last index of `sep` in `input`, 0 if absent (the `index` variable of
`remove_extension` / `basename` / `dirname` in src/main.rs). -/
def last_sep (sep : Char) (input : List Char) : Nat :=
  lastSepFrom sep input 0 0

/-- `remove_extension` (src/main.rs). -/
def remove_extension (input : List Char) : List Char :=
  let index := last_sep '.' input
  if index = 0 then input else input.take index

/-- `basename` (src/main.rs). -/
def basename (input : List Char) : List Char :=
  let index := last_sep '/' input
  if index = 0 then input else input.drop (index + 1)

/-- `dirname` (src/main.rs). -/
def dirname (input : List Char) : List Char :=
  let index := last_sep '/' input
  if index = 0 then input else input.take index

/- ============ Command building (src/main.rs, cmd_builder) ============ -/

/-- The text appended to the in-progress argument string for one token
(src/main.rs, `cmd_builder`, lines 208-218).  Note that the `Basename` arm of
the source pushes the raw input, not `basename input`. -/
def tokenValue (input slot_id job_id : List Char) : Token → List Char
  | Token.Character c => [c]
  | Token.Basename => input
  | Token.BaseAndExt => basename (remove_extension input)
  | Token.Dirname => dirname input
  | Token.Job => job_id
  | Token.Placeholder => input
  | Token.RemoveExtension => remove_extension input
  | Token.Slot => slot_id

/-- Whether a token is one of the substituting tokens
(src/main.rs, `cmd_builder`, the `placeholder_exists` test). -/
def isSubstitution : Token → Bool
  | Token.Character _ => false
  | _ => true

/-- The argument string built by `cmd_builder` (src/main.rs) before it is split
on whitespace: expand every token, and append the raw input when no
substituting token occurs in the template. -/
def build_arguments (input : List Char) (arg_tokens : List Token)
    (slot_id job_id : List Char) : List Char :=
  let arguments := arg_tokens.flatMap (tokenValue input slot_id job_id)
  if arg_tokens.any isSubstitution then arguments else arguments ++ input

/- ========== Shared job cursor (src/main.rs, worker loop) ========== -/

/-- One `fetch_add(1, SeqCst)` on the shared counter: returns the old value and
the new counter state (src/main.rs, line 83). -/
def fetch_add (counter : Nat) : Nat × Nat :=
  (counter, counter + 1)

/-- One pull on the shared cursor by some worker (src/main.rs, lines 81-91):
atomically increment the counter; if the old value reached `num_inputs` the
worker breaks, otherwise it takes the record at that index with job id
`old + 1`. -/
def worker_next (counter num_inputs : Nat) : Option (Nat × Nat) :=
  let (old, _) := fetch_add counter
  if num_inputs ≤ old then none else some (old, old + 1)

/-- The jobs handed out by `steps` successive `fetch_add` operations starting
from counter value `counter`, over `num_inputs` records.  The workers
interleave arbitrarily, but every pull performs the same atomic update, so the
temporal sequence of pulls determines the handed-out `(record index, job id)`
pairs regardless of which worker performs each pull. -/
def cursorRunFrom : Nat → Nat → Nat → List (Nat × Nat)
  | 0, _, _ => []
  | steps + 1, counter, num_inputs =>
      match worker_next counter num_inputs with
      | none => cursorRunFrom steps (counter + 1) num_inputs
      | some job => job :: cursorRunFrom steps (counter + 1) num_inputs

/-- The jobs handed out by a run of `steps` total cursor pulls over
`num_inputs` records, starting from the initial counter value 0. -/
def cursorRun (steps num_inputs : Nat) : List (Nat × Nat) :=
  cursorRunFrom steps 0 num_inputs

/- ========== Input materialization (src/arguments/mod.rs) ========== -/

/-- Space-joining of one record's elements: the first element, then each
further element preceded by one space (the write pattern of
`write_inputs_to_disk`, src/arguments/mod.rs). -/
def joinSpace : List (List Char) → List Char
  | [] => []
  | x :: rest => x ++ rest.flatMap (fun e => ' ' :: e)

/-- The Cartesian product of the input lists, row-major with the rightmost
list varying fastest (the documented iteration order of the `permutate`
crate's `Permutator` used by `write_inputs_to_disk`). -/
def listProduct : List (List (List Char)) → List (List (List Char))
  | [] => [[]]
  | l :: ls => l.flatMap (fun x => (listProduct ls).map (fun p => x :: p))

/-- The `max_args >= 2` permutation loop of `write_inputs_to_disk`
(src/arguments/mod.rs, lines 324-362): `idx` is `max_args_index`; each
permutation either starts a fresh record (counted), ends the current record
with a newline, or extends the current record.  Returns the bytes written and
the number of records counted by the loop. -/
def permWrite (max_args : Nat) : List (List Char) → Nat → List Char × Nat
  | [], _ => ([], 0)
  | p :: ps, idx =>
      if idx = max_args then
        (p ++ (permWrite max_args ps (max_args - 1)).1,
         (permWrite max_args ps (max_args - 1)).2 + 1)
      else if idx = 1 then
        (' ' :: p ++ '\n' :: (permWrite max_args ps max_args).1,
         (permWrite max_args ps max_args).2)
      else
        (' ' :: p ++ (permWrite max_args ps (idx - 1)).1,
         (permWrite max_args ps (idx - 1)).2)

/-- Chunking of a list into pieces of `n` elements (the `chunks(max_args)`
call of `write_inputs_to_disk`); the final chunk may be short. -/
def chunksOf (n : Nat) : List (List Char) → List (List (List Char))
  | [] => []
  | x :: xs => (x :: xs.take (n - 1)) :: chunksOf n (xs.drop (n - 1))
  termination_by l => l.length
  decreasing_by
    simp only [List.length_cons, List.length_drop]
    omega

/-- `write_inputs_to_disk` (src/arguments/mod.rs): the bytes appended to the
disk buffer and the `number_of_arguments` count it returns.  The three
branches mirror the source: several lists (Cartesian product, with the
`max_args` state machine), one list unbatched, one list batched in chunks. -/
def write_inputs_to_disk (lists : List (List (List Char)))
    (current_inputs : List (List Char)) (max_args : Nat) : List Char × Nat :=
  if 1 < lists.length then
    match (listProduct lists).map joinSpace with
    | [] => ([], 0)
    | p1 :: rest =>
        if max_args < 2 then
          (p1 ++ '\n' :: rest.flatMap (fun p => p ++ ['\n']), 1 + rest.length)
        else
          (p1 ++ (permWrite max_args rest (max_args - 1)).1,
           1 + (permWrite max_args rest (max_args - 1)).2)
  else if max_args < 2 then
    (current_inputs.flatMap (fun i => i ++ ['\n']), current_inputs.length)
  else
    ((chunksOf max_args current_inputs).flatMap (fun ch => joinSpace ch ++ ['\n']),
     (chunksOf max_args current_inputs).length)

/-- `merge_lists` (src/arguments/mod.rs): truncate the base list when it is
longer, then join element-wise with a single space; elements of the appended
list beyond the base list's length are drained and lost. -/
def merge_lists (original append : List (List Char)) : List (List Char) :=
  let original :=
    if append.length < original.length then original.take append.length
    else original
  (original.zip append).map (fun p => p.1 ++ ' ' :: p.2)

/- ========== Jobs-flag parsing (src/arguments/mod.rs, jobs module) ========== -/

/-- The digit-accumulating loop of an unsigned decimal parse
(Rust's `str::parse::<usize>` restricted to plain digit strings). -/
def parse_digitsFrom : Nat → List Char → Option Nat
  | acc, [] => some acc
  | acc, c :: rest =>
      if c.isDigit then parse_digitsFrom (acc * 10 + (c.toNat - 48)) rest
      else none

/-- Unsigned decimal parse: fails on the empty string and on any non-digit. -/
def parse_digits (cs : List Char) : Option Nat :=
  if cs = [] then none else parse_digitsFrom 0 cs

/-- Modelled from the spec: `jobs::parse` (module `arguments/jobs.rs`, absent
from the sources; only its caller `parse_jobs` is present).  Spec section 6:
the jobs value accepts an integer, or `N%` meaning that percent of the
detected CPUs, or a negative integer meaning `cores - N`; the result is
clamped to at least 1; anything else is a jobs-not-a-number parse error
(`none` here). -/
def jobs_parse (cpus : Nat) (value : List Char) : Option Nat :=
  match value.getLast? with
  | some '%' =>
      match parse_digits value.dropLast with
      | some n => some (max 1 (cpus * n / 100))
      | none => none
  | _ =>
      match value with
      | '-' :: rest =>
          match parse_digits rest with
          | some n => some (max 1 (cpus - n))
          | none => none
      | _ =>
          match parse_digits value with
          | some n => some (max 1 n)
          | none => none

/-- `parse_jobs` (src/arguments/mod.rs): a `-jN` argument carries its value
inline, otherwise the value is the next argument (missing value is a
jobs-no-value error, modelled as `none` tagged by the caller). -/
def parse_jobs (cpus : Nat) (argument : List Char)
    (next_argument : Option (List Char)) : Option Nat :=
  if 2 < argument.length then
    jobs_parse cpus (argument.drop 2)
  else
    match next_argument with
    | some v => jobs_parse cpus v
    | none => none

/- ========== Worker execution (src/execute/exec_inputs.rs) ========== -/

/-- The result of attempting to spawn one child process
(`command::get_command_output`, a collaborator of `ExecInputs::run`). -/
inductive SpawnResult
  | ok
  | fail (why : List Char)
  deriving DecidableEq, Repr

/-- The per-job events sent on the output channel (`pipe::disk::State`).
Modelled from the spec: the successful path's piped chunk/completion events
for a job are abstracted as a single `Output job_id` event, since only the
error path is at issue here; `Error` carries the formatted message exactly as
`ExecInputs::run` builds it. -/
inductive OutState
  | Output (job_id : Nat)
  | Error (job_id : Nat) (message : List Char)
  deriving DecidableEq, Repr

/-- The message formatted by the spawn-failure arm of `ExecInputs::run`
(src/execute/exec_inputs.rs, line 62). -/
def errorMessage (job_id : Nat) (input why : List Char) : List Char :=
  (Nat.repr job_id).data ++ [':', ' '] ++ input ++ [':', ' '] ++ why ++ ['\n']

/-- The single event a job contributes to the output channel
(src/execute/exec_inputs.rs, lines 49-65): on successful spawn, its piped
output; on spawn failure, one `Error(job_id, message)`. -/
def exec_event (spawn : Nat → List Char → SpawnResult) (job_id : Nat)
    (input : List Char) : OutState :=
  match spawn job_id input with
  | SpawnResult.ok => OutState.Output job_id
  | SpawnResult.fail why => OutState.Error job_id (errorMessage job_id input why)

/-- The worker loop of `ExecInputs::run`: consume every remaining input in
order (job ids counting up from `job_id`), emitting each job's event and
continuing regardless of spawn failures. -/
def exec_run (spawn : Nat → List Char → SpawnResult) :
    Nat → List (List Char) → List OutState
  | _, [] => []
  | job_id, input :: rest =>
      exec_event spawn job_id input :: exec_run spawn (job_id + 1) rest

/-- The number of `Error` events for a given job id in an event trace. -/
def countErrors (job_id : Nat) (trace : List OutState) : Nat :=
  trace.countP (fun s =>
    match s with
    | OutState.Error i _ => i == job_id
    | _ => false)

/- ===================== Helper lemmas ===================== -/

theorem cursorRunFrom_eq (num_inputs : Nat) :
    ∀ (steps counter : Nat), num_inputs ≤ counter + steps →
      cursorRunFrom steps counter num_inputs =
        (List.range' counter (num_inputs - counter)).map (fun i => (i, i + 1)) := by
  intro steps
  induction steps with
  | zero =>
      intro counter h
      have : num_inputs - counter = 0 := by omega
      simp [cursorRunFrom, this]
  | succ n ih =>
      intro counter h
      by_cases hc : num_inputs ≤ counter
      · have h1 : num_inputs - counter = 0 := by omega
        have h2 : num_inputs - (counter + 1) = 0 := by omega
        simp [cursorRunFrom, worker_next, fetch_add, hc, ih (counter + 1) (by omega), h1, h2]
      · have hlt : counter < num_inputs := by omega
        have h1 : num_inputs - counter = (num_inputs - (counter + 1)) + 1 := by omega
        rw [h1]
        simp only [cursorRunFrom, worker_next, fetch_add]
        rw [if_neg (by omega)]
        simp [List.range'_succ, ih (counter + 1) (by omega)]

theorem take_length_zip {α β : Type} :
    ∀ (A : List α) (B : List β), (A.take B.length).zip B = A.zip B := by
  intro A
  induction A with
  | nil => intro B; simp
  | cons a A ih =>
      intro B
      cases B with
      | nil => simp
      | cons b B => simp [List.zip_cons_cons, ih B]

theorem merge_lists_eq (original append : List (List Char)) :
    merge_lists original append =
      (original.zip append).map (fun p => p.1 ++ ' ' :: p.2) := by
  simp only [merge_lists]
  split
  · rw [take_length_zip]
  · rfl

theorem zip_get? {α β : Type} :
    ∀ (A : List α) (B : List β) (i : Nat) (a : α) (b : β),
      A[i]? = some a → B[i]? = some b → (A.zip B)[i]? = some (a, b) := by
  intro A
  induction A with
  | nil => intro B i a b ha; simp at ha
  | cons x A ih =>
      intro B i a b ha hb
      cases B with
      | nil => simp at hb
      | cons y B =>
          cases i with
          | zero =>
              simp at ha hb
              simp [List.zip_cons_cons, ha, hb]
          | succ j =>
              simp at ha hb
              simpa [List.zip_cons_cons] using ih B j a b ha hb

theorem lastSepFrom_not_mem (sep : Char) :
    ∀ (ys : List Char) (id acc : Nat), sep ∉ ys →
      lastSepFrom sep ys id acc = acc := by
  intro ys
  induction ys with
  | nil => intro id acc _; rfl
  | cons c rest ih =>
      intro id acc h
      have hc : ¬(c = sep) := fun hc => h (by simp [hc])
      simp only [lastSepFrom, if_neg hc]
      exact ih (id + 1) acc (fun hm => h (List.mem_cons_of_mem _ hm))

theorem lastSepFrom_append (sep : Char) :
    ∀ (xs ys : List Char) (id acc : Nat), sep ∉ ys →
      lastSepFrom sep (xs ++ sep :: ys) id acc = id + xs.length := by
  intro xs
  induction xs with
  | nil =>
      intro ys id acc h
      simp only [List.nil_append, lastSepFrom, if_pos rfl]
      simpa using lastSepFrom_not_mem sep ys (id + 1) id h
  | cons c xs ih =>
      intro ys id acc h
      simp only [List.cons_append, lastSepFrom, List.append_eq]
      rw [ih ys (id + 1) _ h]
      simp; omega

theorem last_sep_append (sep : Char) (pre suf : List Char) (h : sep ∉ suf) :
    last_sep sep (pre ++ sep :: suf) = pre.length := by
  simpa using lastSepFrom_append sep pre suf 0 0 h

theorem last_sep_head (sep : Char) (suf : List Char) (h : sep ∉ suf) :
    last_sep sep (sep :: suf) = 0 := by
  simpa using last_sep_append sep [] suf h

/- ===================== Claim theorems ===================== -/

/-- C1: over a materialized input list of `num_inputs` records, any complete
run of the shared cursor (at least `num_inputs` atomic pulls in total, in any
interleaving) hands out record indices 0,1,... in input order with job ids
exactly 1..num_inputs, and the job id of each handed-out record is its 1-based
position in input order. -/
theorem claim_C1 (num_inputs steps : Nat) (h : num_inputs ≤ steps) :
    (cursorRun steps num_inputs).map Prod.fst = List.range num_inputs
    ∧ (cursorRun steps num_inputs).map Prod.snd =
        (List.range num_inputs).map (fun i => i + 1)
    ∧ ∀ p ∈ cursorRun steps num_inputs, p.2 = p.1 + 1 := by
  have hrun : cursorRun steps num_inputs =
      (List.range num_inputs).map (fun i => (i, i + 1)) := by
    have := cursorRunFrom_eq num_inputs steps 0 (by omega)
    simpa [cursorRun, List.range_eq_range'] using this
  refine ⟨?_, ?_, ?_⟩
  · rw [hrun, List.map_map]
    have hid : (Prod.fst ∘ fun i : Nat => (i, i + 1)) = id := rfl
    rw [hid, List.map_id]
  · rw [hrun, List.map_map]
    rfl
  · intro p hp
    rw [hrun] at hp
    obtain ⟨i, _, hi⟩ := List.mem_map.mp hp
    rw [← hi]

/-- C1 witness: a complete run over 3 records with 5 cursor pulls. -/
theorem claim_C1_witness :
    (cursorRun 5 3).map Prod.fst = List.range 3
    ∧ (cursorRun 5 3).map Prod.snd = (List.range 3).map (fun i => i + 1) :=
  ⟨(claim_C1 3 5 (by decide)).1, (claim_C1 3 5 (by decide)).2.1⟩

/-- C2 (code bug): in `cmd_builder`, the basename token does not substitute
the basename of the input: the `Token::Basename` arm pushes the raw input.
At input `a/b` with template token `{/}`, the built argument is `a/b`, while
`basename` itself (used by the `{/.}` arm) correctly yields `b`. -/
theorem claim_C2 :
    tokenize ['{', '/', '}'] = [Token.Basename]
    ∧ build_arguments ['a', '/', 'b'] [Token.Basename] ['1'] ['1'] = ['a', '/', 'b']
    ∧ basename ['a', '/', 'b'] = ['b']
    ∧ build_arguments ['a', '/', 'b'] [Token.Basename] ['1'] ['1']
        ≠ basename ['a', '/', 'b'] := by
  refine ⟨rfl, rfl, rfl, ?_⟩
  decide

/-- C3 (code bug): materializing the two lists `a b` and `c d` with
`max_args = 3` writes the bytes `"a c a d b c\nb d"` and returns
`number_of_arguments = 2`, but only 1 newline-terminated record was written:
the permutation branch of `write_inputs_to_disk` omits the final newline when
the permutation count is not a multiple of `max_args`. -/
theorem claim_C3 :
    (write_inputs_to_disk [[['a'], ['b']], [['c'], ['d']]] [['c'], ['d']] 3).2 = 2
    ∧ (write_inputs_to_disk [[['a'], ['b']], [['c'], ['d']]] [['c'], ['d']] 3).1
        = ('a' :: ' ' :: 'c' :: ' ' :: 'a' :: ' ' :: 'd' :: ' ' :: 'b' :: ' '
            :: 'c' :: '\n' :: 'b' :: ' ' :: ['d'])
    ∧ (write_inputs_to_disk [[['a'], ['b']], [['c'], ['d']]] [['c'], ['d']] 3).1.count '\n'
        = 1 := by
  refine ⟨rfl, rfl, ?_⟩
  decide

/-- C5: the zip append `merge_lists` produces a list of length
`min |original| |append|` (truncating the base list when it is longer), whose
`i`-th element is the `i`-th base element, one space, and the `i`-th appended
element. -/
theorem claim_C5 (A B : List (List Char)) :
    (merge_lists A B).length = min A.length B.length
    ∧ ∀ (i : Nat) (a b : List Char), A[i]? = some a → B[i]? = some b →
        (merge_lists A B)[i]? = some (a ++ ' ' :: b) := by
  constructor
  · rw [merge_lists_eq]
    simp
  · intro i a b ha hb
    rw [merge_lists_eq]
    simp [zip_get? A B i a b ha hb]

/-- C5 witness: a longer base list `a b c` zipped with `1 2` has length 2 and
first element `a 1`. -/
theorem claim_C5_witness :
    (merge_lists [['a'], ['b'], ['c']] [['1'], ['2']]).length = min 3 2
    ∧ (merge_lists [['a'], ['b'], ['c']] [['1'], ['2']])[0]? = some ['a', ' ', '1'] :=
  ⟨(claim_C5 [['a'], ['b'], ['c']] [['1'], ['2']]).1,
   (claim_C5 [['a'], ['b'], ['c']] [['1'], ['2']]).2 0 ['a'] ['1'] (by decide) (by decide)⟩

/-- C7 (code bug): an unmatched `{` and the characters after it are discarded
by `tokenize`, not emitted as literal characters: `a{b` tokenizes to just the
literal `a`. -/
theorem claim_C7 :
    tokenize ['a', '{', 'b'] = [Token.Character 'a']
    ∧ tokenize ['a', '{', 'b']
        ≠ [Token.Character 'a', Token.Character '{', Token.Character 'b'] := by
  refine ⟨rfl, ?_⟩
  decide

/-- C10: for `remove_extension`, `basename` and `dirname`, when the last
occurrence of the separator sits at index 0 the input is returned unchanged,
and stripping happens exactly when the last separator occurrence is at a
positive index. -/
theorem claim_C10 (pre suf : List Char) :
    ('.' ∉ suf → remove_extension ('.' :: suf) = '.' :: suf)
    ∧ ('.' ∉ suf → pre ≠ [] → remove_extension (pre ++ '.' :: suf) = pre)
    ∧ ('/' ∉ suf → basename ('/' :: suf) = '/' :: suf)
    ∧ ('/' ∉ suf → pre ≠ [] → basename (pre ++ '/' :: suf) = suf)
    ∧ ('/' ∉ suf → dirname ('/' :: suf) = '/' :: suf)
    ∧ ('/' ∉ suf → pre ≠ [] → dirname (pre ++ '/' :: suf) = pre) := by
  have hlen : ∀ (l : List Char), l ≠ [] → l.length ≠ 0 := by
    intro l hl h0
    exact hl (List.eq_nil_of_length_eq_zero h0)
  refine ⟨?_, ?_, ?_, ?_, ?_, ?_⟩
  · intro h
    simp [remove_extension, last_sep_head '.' suf h]
  · intro h hpre
    simp only [remove_extension, last_sep_append '.' pre suf h,
      if_neg (hlen pre hpre)]
    exact List.take_left pre ('.' :: suf)
  · intro h
    simp [basename, last_sep_head '/' suf h]
  · intro h hpre
    simp only [basename, last_sep_append '/' pre suf h, if_neg (hlen pre hpre)]
    rw [← List.drop_drop, List.drop_left]
    rfl
  · intro h
    simp [dirname, last_sep_head '/' suf h]
  · intro h hpre
    simp only [dirname, last_sep_append '/' pre suf h, if_neg (hlen pre hpre)]
    exact List.take_left pre ('/' :: suf)

/-- C10 witness: `.b` and `/e` are returned unchanged; `a.b`, `a/e` strip at
the positive separator index. -/
theorem claim_C10_witness :
    remove_extension ['.', 'b'] = ['.', 'b']
    ∧ remove_extension ['a', '.', 'b'] = ['a']
    ∧ basename ['/', 'e'] = ['/', 'e']
    ∧ basename ['a', '/', 'e'] = ['e']
    ∧ dirname ['/', 'e'] = ['/', 'e']
    ∧ dirname ['a', '/', 'e'] = ['a'] :=
  ⟨(claim_C10 ['a'] ['b']).1 (by decide),
   (claim_C10 ['a'] ['b']).2.1 (by decide) (by decide),
   (claim_C10 ['a'] ['e']).2.2.1 (by decide),
   (claim_C10 ['a'] ['e']).2.2.2.1 (by decide) (by decide),
   (claim_C10 ['a'] ['e']).2.2.2.2.1 (by decide),
   (claim_C10 ['a'] ['e']).2.2.2.2.2 (by decide) (by decide)⟩

/- ============ Round-trip tokenization (claim C6) ============ -/

theorem renderTokens_append (a b : List Token) :
    renderTokens (a ++ b) = renderTokens a ++ renderTokens b := by
  simp [renderTokens]

theorem tokenizeFrom_group :
    ∀ (pat : List Char), '}' ∉ pat → ∀ (acc rest : List Char),
      tokenizeFrom (pat ++ '}' :: rest) true acc =
        closeGroup (acc ++ pat) ++ tokenizeFrom rest false [] := by
  intro pat
  induction pat with
  | nil =>
      intro _ acc rest
      simp [tokenizeFrom]
  | cons c ps ih =>
      intro h acc rest
      have hc : ¬(c = '}') := fun hc => h (by simp [hc])
      simp only [List.cons_append, tokenizeFrom, if_neg hc, List.append_eq]
      rw [ih (fun hm => h (List.mem_cons_of_mem _ hm)) (acc ++ [c]) rest]
      simp [List.append_assoc]

theorem goodb_grp_render (pat : List Char)
    (h : TItem.goodb (TItem.grp pat) = true) :
    renderTokens (closeGroup pat) = '{' :: pat ++ ['}'] ∧ '}' ∉ pat := by
  simp only [TItem.goodb, Bool.or_eq_true, decide_eq_true_eq,
    Option.isSome_iff_exists] at h
  rcases h with h | ⟨t, ht⟩
  · subst h
    exact ⟨rfl, by simp⟩
  · unfold match_token at ht
    split at ht <;>
      first
        | (cases ht; exact ⟨rfl, by decide⟩)
        | (cases ht)

/-- C6: for any template all of whose brace groups are empty or match the
fixed placeholder table, re-emitting the token stream produced by `tokenize`
as text reproduces the original template. -/
theorem claim_C6 (items : List TItem)
    (hgood : ∀ it ∈ items, TItem.goodb it = true) :
    renderTokens (tokenize (templateOf items)) = templateOf items := by
  induction items with
  | nil => rfl
  | cons it items ih =>
      have hit : TItem.goodb it = true := hgood it (by simp)
      have ihr := ih (fun x hx => hgood x (List.mem_cons_of_mem _ hx))
      cases it with
      | ch c =>
          have hc : ¬(c = '{') := by simpa [TItem.goodb] using hit
          have htext : templateOf (TItem.ch c :: items) = c :: templateOf items := by
            simp [templateOf, TItem.text]
          rw [htext]
          simp only [tokenize, tokenizeFrom, if_neg hc]
          have : renderTokens (Token.Character c :: tokenizeFrom (templateOf items) false []) =
              c :: renderTokens (tokenize (templateOf items)) := by
            simp [renderTokens, renderToken, tokenize]
          rw [this, ihr]
      | grp pat =>
          obtain ⟨hrender, hnot⟩ := goodb_grp_render pat hit
          have htext : templateOf (TItem.grp pat :: items) =
              '{' :: (pat ++ '}' :: templateOf items) := by
            simp [templateOf, TItem.text]
          rw [htext]
          have h1 : tokenize ('{' :: (pat ++ '}' :: templateOf items)) =
              tokenizeFrom (pat ++ '}' :: templateOf items) true [] := rfl
          rw [h1,
            show tokenizeFrom (pat ++ '}' :: templateOf items) true [] =
                closeGroup pat ++ tokenizeFrom (templateOf items) false [] by
              simpa using tokenizeFrom_group pat hnot [] (templateOf items),
            renderTokens_append,
            show tokenizeFrom (templateOf items) false [] = tokenize (templateOf items) from rfl,
            ihr, hrender]
          simp

/-- C6 witness: the template `e{/}x{}` round-trips. -/
theorem claim_C6_witness :
    renderTokens (tokenize (templateOf
      [TItem.ch 'e', TItem.grp ['/'], TItem.ch 'x', TItem.grp []])) =
      templateOf [TItem.ch 'e', TItem.grp ['/'], TItem.ch 'x', TItem.grp []] :=
  claim_C6 [TItem.ch 'e', TItem.grp ['/'], TItem.ch 'x', TItem.grp []] (by decide)

/- ============ Spawn-error handling (claim C9) ============ -/

theorem exec_run_length (spawn : Nat → List Char → SpawnResult) :
    ∀ (inputs : List (List Char)) (k : Nat),
      (exec_run spawn k inputs).length = inputs.length := by
  intro inputs
  induction inputs with
  | nil => intro k; rfl
  | cons x rest ih => intro k; simp [exec_run, ih]

theorem exec_run_get? (spawn : Nat → List Char → SpawnResult) :
    ∀ (inputs : List (List Char)) (k j : Nat) (a : List Char),
      inputs[j]? = some a →
      (exec_run spawn k inputs)[j]? = some (exec_event spawn (k + j) a) := by
  intro inputs
  induction inputs with
  | nil => intro k j a ha; simp at ha
  | cons x rest ih =>
      intro k j a ha
      cases j with
      | zero =>
          simp at ha
          simp [exec_run, ha]
      | succ j' =>
          simp at ha
          have := ih (k + 1) j' a ha
          simpa [exec_run, Nat.add_assoc, Nat.add_comm 1 j'] using this

theorem countErrors_lt (spawn : Nat → List Char → SpawnResult) :
    ∀ (inputs : List (List Char)) (k id : Nat), id < k →
      countErrors id (exec_run spawn k inputs) = 0 := by
  intro inputs
  induction inputs with
  | nil => intro k id _; rfl
  | cons x rest ih =>
      intro k id h
      simp only [exec_run, countErrors, List.countP_cons]
      have h0 := ih (k + 1) id (by omega)
      simp only [countErrors] at h0
      rw [h0]
      cases hev : spawn k x
      · simp [exec_event, hev]
      · have hne : (k == id) = false := by
          simp only [beq_eq_false_iff_ne, ne_eq]
          omega
        simp [exec_event, hev, hne]

theorem countErrors_fail (spawn : Nat → List Char → SpawnResult) :
    ∀ (inputs : List (List Char)) (k j : Nat) (a why : List Char),
      inputs[j]? = some a → spawn (k + j) a = SpawnResult.fail why →
      countErrors (k + j) (exec_run spawn k inputs) = 1 := by
  intro inputs
  induction inputs with
  | nil => intro k j a why ha; simp at ha
  | cons x rest ih =>
      intro k j a why ha hfail
      cases j with
      | zero =>
          simp at ha
          subst ha
          simp only [Nat.add_zero] at hfail
          simp only [exec_run, countErrors, List.countP_cons, exec_event, hfail]
          have h0 : countErrors k (exec_run spawn (k + 1) rest) = 0 :=
            countErrors_lt spawn rest (k + 1) k (by omega)
          simp only [countErrors] at h0
          simp [h0]
      | succ j' =>
          simp at ha
          have hrec := ih (k + 1) j' a why ha
            (by rw [show k + 1 + j' = k + (j' + 1) by omega]; exact hfail)
          simp only [countErrors] at hrec ⊢
          simp only [exec_run, List.countP_cons]
          rw [show k + 1 + j' = k + (j' + 1) by omega] at hrec
          rw [hrec]
          cases hev : spawn k x <;>
            simp [exec_event, hev, show ¬(k = k + (j' + 1)) by omega]

/-- C9: in the worker loop of `ExecInputs::run`, a job whose child fails to
spawn contributes exactly one `Error(job_id, message)` event to the output
channel, with the message formatted from the job id, input and cause; the run
still processes every input (one event per job, each job's event determined
by its own spawn outcome), so a spawn failure never terminates the run or
affects other jobs. -/
theorem claim_C9 (spawn : Nat → List Char → SpawnResult)
    (inputs : List (List Char)) :
    (exec_run spawn 1 inputs).length = inputs.length
    ∧ (∀ (j : Nat) (a : List Char), inputs[j]? = some a →
        (exec_run spawn 1 inputs)[j]? = some (exec_event spawn (1 + j) a))
    ∧ (∀ (j : Nat) (a why : List Char), inputs[j]? = some a →
        spawn (1 + j) a = SpawnResult.fail why →
        (exec_run spawn 1 inputs)[j]? =
          some (OutState.Error (1 + j) (errorMessage (1 + j) a why))
        ∧ countErrors (1 + j) (exec_run spawn 1 inputs) = 1) := by
  refine ⟨exec_run_length spawn inputs 1, ?_, ?_⟩
  · intro j a ha
    exact exec_run_get? spawn inputs 1 j a ha
  · intro j a why ha hfail
    constructor
    · rw [exec_run_get? spawn inputs 1 j a ha]
      simp [exec_event, hfail]
    · exact countErrors_fail spawn inputs 1 j a why ha hfail

/-- C9 witness: with three inputs and a spawn function failing exactly on job
2, the trace has three events and exactly one `Error` for job 2. -/
theorem claim_C9_witness :
    (exec_run (fun id _ => if id = 2 then SpawnResult.fail ['n', 'o'] else SpawnResult.ok)
      1 [['a'], ['b'], ['c']]).length = 3
    ∧ countErrors 2 (exec_run
        (fun id _ => if id = 2 then SpawnResult.fail ['n', 'o'] else SpawnResult.ok)
        1 [['a'], ['b'], ['c']]) = 1 :=
  ⟨(claim_C9 (fun id _ => if id = 2 then SpawnResult.fail ['n', 'o'] else SpawnResult.ok)
      [['a'], ['b'], ['c']]).1,
   ((claim_C9 (fun id _ => if id = 2 then SpawnResult.fail ['n', 'o'] else SpawnResult.ok)
      [['a'], ['b'], ['c']]).2.2 1 ['b'] ['n', 'o'] (by decide) (by decide)).2⟩

/- ============ Jobs-flag parsing (claim C8) ============ -/

theorem parse_digitsFrom_isDigit :
    ∀ (cs : List Char) (acc n : Nat), parse_digitsFrom acc cs = some n →
      ∀ c ∈ cs, c.isDigit = true := by
  intro cs
  induction cs with
  | nil => intro acc n _ c hc; simp at hc
  | cons d rest ih =>
      intro acc n h c hc
      simp only [parse_digitsFrom] at h
      by_cases hd : d.isDigit
      · rw [if_pos hd] at h
        rcases List.mem_cons.mp hc with rfl | hc'
        · exact hd
        · exact ih _ n h c hc'
      · rw [if_neg hd] at h
        simp at h

theorem parse_digits_none_of_mem {cs : List Char} {c : Char} (hc : c ∈ cs)
    (hnd : c.isDigit = false) : parse_digits cs = none := by
  cases h : parse_digits cs with
  | none => rfl
  | some n =>
      exfalso
      unfold parse_digits at h
      rw [if_neg (by rintro rfl; simp at hc)] at h
      have := parse_digitsFrom_isDigit cs 0 n h c hc
      rw [hnd] at this
      simp at this

/-- C8: the jobs value accepted by the `-j` flag parses successfully exactly
when it is a plain integer, an integer followed by `%`, or a negative integer,
the resulting parallelism is always at least 1, and `parse_jobs` reads the
value inline from `-jN` or from the following argument. -/
theorem claim_C8 (cpus : Nat) (v : List Char) :
    ((jobs_parse cpus v).isSome = true ↔
      ((parse_digits v).isSome = true
        ∨ (v.getLast? = some '%' ∧ (parse_digits v.dropLast).isSome = true)
        ∨ (v.head? = some '-' ∧ (parse_digits v.tail).isSome = true)))
    ∧ (∀ n, jobs_parse cpus v = some n → 1 ≤ n)
    ∧ (v ≠ [] → parse_jobs cpus ('-' :: 'j' :: v) none = jobs_parse cpus v)
    ∧ parse_jobs cpus ['-', 'j'] (some v) = jobs_parse cpus v := by
  refine ⟨?_, ?_, ?_, ?_⟩
  · unfold jobs_parse
    split
    · next heq =>
        rcases List.eq_nil_or_concat v with rfl | ⟨ys, c, rfl⟩
        · simp at heq
        · rw [List.concat_eq_append] at heq ⊢
          have hc : c = '%' := by
            rw [List.getLast?_concat] at heq
            exact Option.some_inj.mp heq
          subst hc
          rw [List.dropLast_concat]
          cases hp : parse_digits ys with
          | some n => simp [hp, List.getLast?_concat, List.dropLast_concat]
          | none =>
              simp only [hp, Option.isSome_none, Bool.false_eq_true, false_iff]
              rintro (h1 | ⟨-, h2⟩ | ⟨h3a, h3b⟩)
              · rw [parse_digits_none_of_mem (List.mem_concat_self ys '%')
                  (by decide)] at h1
                simp at h1
              · exact h2
              · cases ys with
                | nil => simp at h3a
                | cons d ys' =>
                    rw [List.cons_append, List.head?_cons] at h3a
                    rw [show ((d :: ys' ++ ['%']).tail) = ys' ++ ['%'] by simp] at h3b
                    rw [parse_digits_none_of_mem (List.mem_concat_self ys' '%')
                      (by decide)] at h3b
                    simp at h3b
    · next hne =>
        split
        · next _ rest =>
            cases hp : parse_digits rest with
            | some n => simp [hp]
            | none =>
                simp only [hp, Option.isSome_none, Bool.false_eq_true, false_iff]
                rintro (h1 | ⟨h2, -⟩ | ⟨-, h3⟩)
                · rw [parse_digits_none_of_mem (List.mem_cons_self '-' rest)
                    (by decide)] at h1
                  simp at h1
                · exact hne h2
                · rw [List.tail_cons, hp] at h3
                  simp at h3
        · next _ hnd =>
            cases hp : parse_digits v with
            | some n => simp [hp]
            | none =>
                simp only [hp, Option.isSome_none, Bool.false_eq_true, false_iff]
                rintro (h1 | ⟨h2, -⟩ | ⟨h3, -⟩)
                · exact h1
                · exact hne h2
                · cases v with
                  | nil => simp at h3
                  | cons d r =>
                      rw [List.head?_cons] at h3
                      exact hnd r (by rw [Option.some_inj.mp h3])
  · intro n h
    unfold jobs_parse at h
    split at h
    · split at h
      · cases h; exact le_max_left 1 _
      · cases h
    · split at h
      · split at h
        · cases h; exact le_max_left 1 _
        · cases h
      · split at h
        · cases h; exact le_max_left 1 _
        · cases h
  · intro hv
    have hlen : 2 < ('-' :: 'j' :: v).length := by
      simp only [List.length_cons]
      have := List.length_pos.mpr hv
      omega
    simp [parse_jobs, hlen, hv]
  · rfl

/-- C8 witness: with 4 detected CPUs, `50%` parses to 2. -/
theorem claim_C8_witness :
    (jobs_parse 4 ['5', '0', '%']).isSome = true
    ∧ 1 ≤ 2
    ∧ parse_jobs 4 ['-', 'j', '5', '0', '%'] none = jobs_parse 4 ['5', '0', '%']
    ∧ parse_jobs 4 ['-', 'j'] (some ['5', '0', '%']) = jobs_parse 4 ['5', '0', '%'] :=
  ⟨(claim_C8 4 ['5', '0', '%']).1.mpr (Or.inr (Or.inl (by decide))),
   (claim_C8 4 ['5', '0', '%']).2.1 2 (by decide),
   (claim_C8 4 ['5', '0', '%']).2.2.1 (by decide),
   (claim_C8 4 ['5', '0', '%']).2.2.2⟩

/- ============ Permutation record count (claim C4) ============ -/

theorem sum_map_const {α : Type} (l : List α) (c : Nat) :
    (l.map (fun _ => c)).sum = l.length * c := by
  induction l with
  | nil => simp
  | cons x xs ih =>
      simp only [List.map_cons, List.sum_cons, ih, List.length_cons]
      ring

theorem listProduct_length :
    ∀ (ls : List (List (List Char))),
      (listProduct ls).length = (ls.map List.length).prod := by
  intro ls
  induction ls with
  | nil => rfl
  | cons l ls ih =>
      simp only [listProduct, List.length_flatMap, Function.comp_def,
        List.length_map, ih, List.map_cons, List.prod_cons]
      rw [sum_map_const]

theorem permWrite_count (M : Nat) (hM : 2 ≤ M) :
    ∀ (ps : List (List Char)) (i : Nat), 1 ≤ i → i ≤ M →
      (permWrite M ps i).2 = (ps.length + (M - 1) - i % M) / M := by
  intro ps
  induction ps with
  | nil =>
      intro i _ _
      have him : i % M < M := Nat.mod_lt _ (by omega)
      simp only [permWrite, List.length_nil]
      rw [Nat.div_eq_of_lt (by omega)]
  | cons p ps ih =>
      intro i h1 hi
      by_cases hiM : i = M
      · have hstep : (permWrite M (p :: ps) i).2 = (permWrite M ps (M - 1)).2 + 1 := by
          simp [permWrite, hiM]
        rw [hstep, ih (M - 1) (by omega) (by omega), hiM]
        rw [Nat.mod_eq_of_lt (by omega : M - 1 < M), Nat.mod_self]
        rw [show ps.length + (M - 1) - (M - 1) = ps.length by omega]
        rw [show (p :: ps).length + (M - 1) - 0 = ps.length + M by
          simp only [List.length_cons]; omega]
        rw [Nat.add_div_right _ (by omega : 0 < M)]
      · by_cases hi1 : i = 1
        · have hstep : (permWrite M (p :: ps) i).2 = (permWrite M ps M).2 := by
            simp [permWrite, hi1, show ¬(1 = M) by omega]
          rw [hstep, ih M (by omega) (le_refl M), hi1]
          rw [Nat.mod_self, Nat.mod_eq_of_lt (by omega : 1 < M)]
          congr 1
          simp only [List.length_cons]
          omega
        · have hstep : (permWrite M (p :: ps) i).2 = (permWrite M ps (i - 1)).2 := by
            simp [permWrite, hiM, hi1]
          rw [hstep, ih (i - 1) (by omega) (by omega)]
          rw [Nat.mod_eq_of_lt (by omega : i - 1 < M),
            Nat.mod_eq_of_lt (by omega : i < M)]
          congr 1
          simp only [List.length_cons]
          omega

/-- C4: for two or more (nonempty) input lists, `write_inputs_to_disk` emits
a record count equal to the ceiling of (product of the list lengths) divided
by `max_args` when `max_args ≥ 2`, and to the product itself otherwise. -/
theorem claim_C4 (lists : List (List (List Char)))
    (current_inputs : List (List Char)) (M : Nat)
    (hK : 2 ≤ lists.length) (hne : ∀ l ∈ lists, l ≠ []) :
    (write_inputs_to_disk lists current_inputs M).2 =
      if 2 ≤ M then ((lists.map List.length).prod + (M - 1)) / M
      else (lists.map List.length).prod := by
  have hP : 0 < (lists.map List.length).prod := by
    apply List.prod_pos
    intro a ha
    obtain ⟨l, hl, rfl⟩ := List.mem_map.mp ha
    exact List.length_pos.mpr (hne l hl)
  have hlenperms : ((listProduct lists).map joinSpace).length =
      (lists.map List.length).prod := by
    rw [List.length_map, listProduct_length]
  rcases hperm : (listProduct lists).map joinSpace with _ | ⟨p1, rest⟩
  · rw [hperm] at hlenperms
    simp at hlenperms
    omega
  · have hrest : rest.length = (lists.map List.length).prod - 1 := by
      rw [hperm] at hlenperms
      simp only [List.length_cons] at hlenperms
      omega
    unfold write_inputs_to_disk
    rw [if_pos (show 1 < lists.length by omega), hperm]
    dsimp only
    by_cases hM : M < 2
    · rw [if_pos hM]
      rw [if_neg (by omega : ¬2 ≤ M)]
      dsimp only
      omega
    · rw [if_neg hM]
      rw [if_pos (by omega : 2 ≤ M)]
      dsimp only
      rw [permWrite_count M (by omega) rest (M - 1) (by omega) (by omega)]
      rw [Nat.mod_eq_of_lt (by omega : M - 1 < M)]
      rw [show rest.length + (M - 1) - (M - 1) = (lists.map List.length).prod - 1 by omega]
      rw [show (lists.map List.length).prod + (M - 1) =
            ((lists.map List.length).prod - 1) + M by omega]
      rw [Nat.add_div_right _ (by omega : 0 < M)]
      omega

/-- C4 witness: lists of lengths 3 and 2 with `max_args = 4` produce
`⌈6/4⌉ = 2` records. -/
theorem claim_C4_witness :
    (write_inputs_to_disk [[['a'], ['b'], ['c']], [['x'], ['y']]] [] 4).2 =
      ((([[['a'], ['b'], ['c']], [['x'], ['y']]] : List (List (List Char))).map
          List.length).prod + 3) / 4 := by
  have h := claim_C4 [[['a'], ['b'], ['c']], [['x'], ['y']]] [] 4
    (by decide) (by decide)
  simpa using h

end Parallel
